import Mathlib

/-!
Verification of the `monad-free` property-based generator core against its
natural-language specification.

We give a shallow embedding of the core of the repository:
  * `Rand64` / `Random` embed `src/random.rs` (the external `oorandom::Rand64`
    PCG generator is not part of this repository and is modelled from the spec
    where needed, see the doc comments below);
  * `Tree`, `TreePath`, `Gen`, `Chooser`, `combine_go`, `shrink_u64`,
    `Gen.usize`, `Gen.choose` embed `src/hh3_lazy_tree.rs`.

Machine integers (`u64`, `u128`, `usize`) are embedded as `Nat` with explicit
`% 2^w` at the points where the Rust code relies on wrapping arithmetic.

The Rust `Tree` has lazy, recomputed-on-demand children
(`children : Rc<dyn Fn() -> Vec<Tree>>`). We embed it as a strict rose tree;
for the tree built by `combine`, which may be unboundedly deep, the builder
`combine_go` takes an extra fuel argument giving the observation depth: the
fuel-`n+1` tree exposes the root value and the children as the Rust code
would compute them, each child observed at depth `n`.  Fuel plays no other
role: value and child lists at every observed level are computed exactly as
in the source.
-/

namespace MonadFree

/-! ## Random source: `src/random.rs` over the external `oorandom::Rand64` -/

/-- Word bound for `u128` arithmetic. -/
def W128 : Nat := 2 ^ 128

/-- Word bound for `u64` arithmetic. -/
def W64 : Nat := 2 ^ 64

/-- Modelled from the spec: the state of the external `oorandom::Rand64`
pseudo-random generator (a PCG-family generator; the crate is a dependency,
not part of this repository's sources).  The spec describes the random source
as opaque PRNG state; `src/random.rs` observes it through `state()` (a
`(state, increment)` pair of `u128`), `rand_u64()` and `from_state`. -/
structure Rand64 where
  state : Nat
  inc : Nat
deriving DecidableEq, Repr

/-- The PCG 128-bit default multiplier used by the external generator's
state advance (`0x2360ed051fc65da44385df649fccf645`). -/
def PCG_MULT : Nat := 47026247687942121848144207491837523525

/-- Modelled from the spec: the 64-bit output function of the external PCG
generator (xor of the two state halves, rotated right by the top state bits).
No claim below depends on the exact shape of this function, only on its
determinism. -/
def Rand64.output (s : Nat) : Nat :=
  let x := ((s / W64) ^^^ s) % W64
  let rot := (s / 2 ^ 122) % 64
  (x / 2 ^ rot + x % 2 ^ rot * 2 ^ (64 - rot)) % W64

/-- Modelled from the spec: `oorandom::Rand64::rand_u64`.  The PCG state
advance `state := state * MULT + inc (mod 2^128)` with the increment
unchanged; the output is a function of the old state.  Returns
`(output, advanced generator)`. -/
def Rand64.rand_u64 (r : Rand64) : Nat × Rand64 :=
  (Rand64.output r.state, ⟨(r.state * PCG_MULT + r.inc) % W128, r.inc⟩)

/-- `Random` from `src/random.rs`: a wrapper around the PRNG state. -/
structure Random where
  rand : Rand64
deriving DecidableEq, Repr

/-- `Random::split` from `src/random.rs` lines 32-42.  Reads the current
`(state, inc)` pair, draws `growth` with `rand_u64` (which advances `self`),
and builds the child from the perturbed state and `inc + 2` (the increment
must stay odd, so an even amount is added).  Returns
`(self after the split, child)`.  The `u128` additions wrap. -/
def Random.split (r : Random) : Random × Random :=
  let st := r.rand.state
  let inc := r.rand.inc
  let g := r.rand.rand_u64
  (⟨g.2⟩, ⟨⟨(st + g.1) % W128, (inc + 2) % W128⟩⟩)

/-- Modelled from the spec: `Random::u64_range` delegates to the external
`oorandom::Rand64::rand_range`, which is not part of this repository.  Per
spec §4.1 the draw "returns an integer uniformly in `[lo, hi)`" and is
"Undefined/invalid if `lo >= hi` … no silent wraparound", and §7 requires an
empty or inverted range to fail immediately.  We model a valid draw as
`lo + output % (hi - lo)` (in range) and an invalid range as `none`. -/
def Random.u64_range (r : Random) (lo hi : Nat) : Option (Nat × Random) :=
  if lo < hi then
    let g := r.rand.rand_u64
    some (lo + g.1 % (hi - lo), ⟨g.2⟩)
  else
    none

/-- The value drawn by `Random::u64_range` on a valid range (the total core
of `Random.u64_range`, used where the surrounding code guarantees
`lo < hi`). -/
def Random.u64_val (r : Random) (lo hi : Nat) : Nat :=
  lo + (r.rand.rand_u64).1 % (hi - lo)

theorem u64_range_of_valid (r : Random) (lo hi : Nat) (h : lo < hi) :
    Random.u64_range r lo hi = some (Random.u64_val r lo hi, ⟨(r.rand.rand_u64).2⟩) := by
  simp [Random.u64_range, Random.u64_val, h]

/-! ## Lazy shrink tree and tree paths: `src/hh3_lazy_tree.rs` lines 7-45 -/

/-- The rose tree of `src/hh3_lazy_tree.rs` lines 9-13: a generated value and
its possible shrinks.  The Rust children are a lazily re-run closure; here
they are a strict list (see the header comment on fuel). -/
inductive Tree (A : Type) : Type where
  | node (value : A) (children : List (Tree A)) : Tree A

/-- The root value of a tree. -/
def Tree.value : Tree A → A
  | .node v _ => v

/-- The (one level of) children of a tree. -/
def Tree.children : Tree A → List (Tree A)
  | .node _ c => c

@[simp] theorem Tree.value_node (v : A) (c : List (Tree A)) : (Tree.node v c).value = v := rfl

@[simp] theorem Tree.children_node (v : A) (c : List (Tree A)) :
    (Tree.node v c).children = c := rfl

/-- `TreePath` from `src/hh3_lazy_tree.rs` lines 36-39: each element of
`indices` is the index of a child node. -/
structure TreePath where
  indices : List Nat
deriving DecidableEq, Repr

/-- `TreePath::empty`. -/
def TreePath.empty : TreePath := ⟨[]⟩

/-- The loop body of `Tree::get_path_or_closest` (lines 19-32): walk the
index list, stepping into child `ix` while it exists, and give up, returning
the current node, at the first out-of-bounds index. -/
def getPathGo : List Nat → Tree A → Tree A
  | [], t => t
  | ix :: rest, t =>
    match t.children[ix]? with
    | some c => getPathGo rest c
    | none => t

/-- `Tree::get_path_or_closest` from `src/hh3_lazy_tree.rs` lines 19-32. -/
def Tree.get_path_or_closest (t : Tree A) (p : TreePath) : Tree A :=
  getPathGo p.indices t

/-- Exact path resolution: `some` node only when every index is in
bounds.  Used to state reachability; not itself in the source. -/
def exactFollow : List Nat → Tree A → Option (Tree A)
  | [], t => some t
  | ix :: rest, t =>
    match t.children[ix]? with
    | some c => exactFollow rest c
    | none => none

/-- `u` is an ancestor-or-self node reachable from `t` by child steps. -/
def Reachable (t u : Tree A) : Prop :=
  ∃ q, exactFollow q t = some u

@[simp] theorem exactFollow_nil (t : Tree A) : exactFollow [] t = some t := rfl

theorem Reachable.refl (t : Tree A) : Reachable t t := ⟨[], rfl⟩

/-- When a path resolves exactly, `get_path_or_closest` agrees with it. -/
theorem getPathGo_of_exactFollow :
    ∀ (p : List Nat) (t u : Tree A), exactFollow p t = some u → getPathGo p t = u := by
  intro p
  induction p with
  | nil => intro t u h; simpa [exactFollow, getPathGo] using h
  | cons ix rest ih =>
    intro t u h
    simp only [exactFollow, getPathGo] at h ⊢
    cases hc : t.children[ix]? with
    | some c => rw [hc] at h; exact ih c u h
    | none => rw [hc] at h; exact absurd h (by simp)

/-- Resolving a path through one more index at the end steps into that
child of the resolved node (when everything is in bounds). -/
theorem exactFollow_append_single :
    ∀ (p : List Nat) (j : Nat) (t : Tree A),
      exactFollow (p ++ [j]) t =
        (exactFollow p t).bind (fun u => u.children[j]?) := by
  intro p
  induction p with
  | nil =>
    intro j t
    simp only [List.nil_append, exactFollow]
    cases hc : t.children[j]? <;> simp [exactFollow, hc]
  | cons ix rest ih =>
    intro j t
    simp only [List.cons_append, exactFollow]
    cases t.children[ix]? <;> simp [ih]

/-! ## Generators and the bounded-integer primitive:
`src/hh3_lazy_tree.rs` lines 47-58 and 188-217 -/

/-- `Gen` from `src/hh3_lazy_tree.rs` lines 48-51: a generator is a function
from RNG and gen size to a tree. -/
structure Gen (A : Type) where
  run : Random → Nat → Tree A

/-- `Gen::shrink_u64` from `src/hh3_lazy_tree.rs` lines 201-217.  With
`v0 = value - start`: two children (midpoint `start + v0 / 2`, then
decrement `value - 1`) when `v0 > 4`, one child (`value - 1`) when
`0 < v0 <= 4`, none when `v0 = 0`.  The `hi` bound is carried (as the Rust
code clones the whole range) but not used by the shrink rule. -/
def shrink_u64 (lo hi v : Nat) : Tree Nat :=
  if h4 : 4 < v - lo then
    Tree.node v [shrink_u64 lo hi (lo + (v - lo) / 2), shrink_u64 lo hi (v - 1)]
  else if h0 : 0 < v - lo then
    Tree.node v [shrink_u64 lo hi (v - 1)]
  else
    Tree.node v []
termination_by v - lo
decreasing_by
  all_goals omega

@[simp] theorem shrink_u64_value (lo hi v : Nat) : (shrink_u64 lo hi v).value = v := by
  rw [shrink_u64.eq_def]
  split
  · rfl
  · split <;> rfl

theorem shrink_u64_children_gt (lo hi v : Nat) (h : 4 < v - lo) :
    (shrink_u64 lo hi v).children =
      [shrink_u64 lo hi (lo + (v - lo) / 2), shrink_u64 lo hi (v - 1)] := by
  rw [shrink_u64.eq_def]
  simp [h]

theorem shrink_u64_children_dec (lo hi v : Nat) (h0 : 0 < v - lo) (h4 : v - lo ≤ 4) :
    (shrink_u64 lo hi v).children = [shrink_u64 lo hi (v - 1)] := by
  rw [shrink_u64.eq_def]
  simp [Nat.not_lt.mpr h4, h0]

theorem shrink_u64_children_zero (lo hi v : Nat) (h : v - lo = 0) :
    (shrink_u64 lo hi v).children = [] := by
  rw [shrink_u64.eq_def]
  simp [h]

/-- `Gen::u64` from `src/hh3_lazy_tree.rs` lines 188-199, on a valid range:
draw a value from the random source and build its shrink tree.  The size
parameter is ignored by the source (`|mut r, _s|`). -/
def Gen.u64 (lo hi : Nat) : Gen Nat :=
  ⟨fun r _s => shrink_u64 lo hi (Random.u64_val r lo hi)⟩

/-- `Gen::u64` composed with the range-validity check of the underlying
draw (see `Random.u64_range`): on an empty or inverted range the draw fails
and `Gen::u64` propagates the failure; otherwise the shrink tree of the
drawn value is produced.  The size parameter is ignored. -/
def Gen.u64Checked (lo hi : Nat) (r : Random) (_s : Nat) : Option (Tree Nat) :=
  (Random.u64_range r lo hi).map fun vg => shrink_u64 lo hi vg.1

/-- Every exactly-resolvable node of a `shrink_u64` tree is itself a
`shrink_u64` tree of a value between `lo` and the root value. -/
theorem reach_shrink_u64 :
    ∀ (q : List Nat) (lo hi v : Nat), lo ≤ v →
      ∀ u, exactFollow q (shrink_u64 lo hi v) = some u →
        ∃ w, lo ≤ w ∧ w ≤ v ∧ q.length + (w - lo) ≤ v - lo ∧ u = shrink_u64 lo hi w := by
  intro q
  induction q with
  | nil =>
    intro lo hi v hv u h
    exact ⟨v, hv, le_refl v, by simp, by simpa using h.symm⟩
  | cons i rest ih =>
    intro lo hi v hv u h
    simp only [exactFollow] at h
    cases hc : (shrink_u64 lo hi v).children[i]? with
    | none => rw [hc] at h; exact absurd h (by simp)
    | some c =>
      rw [hc] at h
      have hmem : c ∈ (shrink_u64 lo hi v).children := by
        have := List.getElem?_eq_some_iff.mp hc
        rcases this with ⟨hi2, rfl⟩
        exact List.getElem_mem hi2
      -- identify `c` as a shrink tree of a strictly smaller delta
      have hcase : ∃ w, lo ≤ w ∧ w ≤ v ∧ w - lo < v - lo ∧ c = shrink_u64 lo hi w := by
        by_cases h4 : 4 < v - lo
        · rw [shrink_u64_children_gt lo hi v h4] at hmem
          simp only [List.mem_cons, List.not_mem_nil, or_false] at hmem
          rcases hmem with rfl | rfl
          · exact ⟨lo + (v - lo) / 2, by omega, by omega, by omega, rfl⟩
          · exact ⟨v - 1, by omega, by omega, by omega, rfl⟩
        · by_cases h0 : 0 < v - lo
          · rw [shrink_u64_children_dec lo hi v h0 (by omega)] at hmem
            simp only [List.mem_cons, List.not_mem_nil, or_false] at hmem
            rcases hmem with rfl
            exact ⟨v - 1, by omega, by omega, by omega, rfl⟩
          · rw [shrink_u64_children_zero lo hi v (by omega)] at hmem
            simp at hmem
      rcases hcase with ⟨w, hw1, hw2, hw3, rfl⟩
      rcases ih lo hi w hw1 u h with ⟨w2, hw21, hw22, hw23, rfl⟩
      refine ⟨w2, hw21, by omega, ?_, rfl⟩
      simp only [List.length_cons]
      omega

/-! ## Chooser and the combine tree-builder:
`src/hh3_lazy_tree.rs` lines 88-181 -/

/-- `Chooser` from `src/hh3_lazy_tree.rs` lines 143-153: the extraction
capability.  `rand` and `gen_child_count` are mutated as the closure runs;
`size` and `gen_paths` are inputs. -/
structure Chooser (V : Type) where
  rand : Random
  size : Nat
  gen_paths : List TreePath
  gen_child_count : List Nat

/-- `Chooser::new` (lines 156-161). -/
def Chooser.new (rand : Random) (size : Nat) (gen_paths : List TreePath) : Chooser V :=
  ⟨rand, size, gen_paths, []⟩

/-- `Chooser::of` from `src/hh3_lazy_tree.rs` lines 163-181: split the
chooser's random source, run the sub-generator with the child source and the
chooser's size, resolve the resulting tree against the input path for this
call-site (the call-site index is the number of extractions made so far), or
take the whole tree when no path entry exists; record the resolved node's
child count and return its value.  Returns the value and the updated
chooser. -/
def Chooser.of (c : Chooser V) (g : Gen V) : V × Chooser V :=
  let sp := Random.split c.rand
  let tree := g.run sp.2 c.size
  let ix := c.gen_child_count.length
  let shrunk :=
    match c.gen_paths[ix]? with
    | none => tree
    | some p => tree.get_path_or_closest p
  (shrunk.value,
    ⟨sp.1, c.size, c.gen_paths, c.gen_child_count ++ [shrunk.children.length]⟩)

/-- A closure of type `Fn(&mut Chooser) -> A` as used by `Gen::combine`.
The borrow checker confines the chooser to the closure, so the closure can
interact with it only through `Chooser::of`; such closures are exactly the
programs built from `Chooser::of` calls (on sub-generators producing values
of some type `V`) and pure computation, which this free-monad-style type
captures. -/
inductive FGen (V A : Type) : Type where
  | pure (a : A) : FGen V A
  | bind (g : Gen V) (k : V → FGen V A) : FGen V A

/-- Running a combine closure against a chooser: each `FGen.bind` is one
`Chooser::of` call.  Returns the closure's value and the final chooser. -/
def runClosure : FGen V A → Chooser V → A × Chooser V
  | .pure a, c => (a, c)
  | .bind g k, c =>
    let vc := Chooser.of c g
    runClosure (k vc.1) vc.2

/-- The `while paths.len() < gen_count` padding loop of `Gen::combine_go`
(lines 106-109): append empty paths until there is one per call-site
exercised. -/
def padPaths (paths : List TreePath) (genCount : Nat) : List TreePath :=
  paths ++ List.replicate (genCount - paths.length) TreePath.empty

/-- `paths_copy[gen_ix].indices.push(child_ix)` (line 124): extend the
path at position `i` by the index `j`, leaving all other entries
unchanged. -/
def extendAt : List TreePath → Nat → Nat → List TreePath
  | [], _, _ => []
  | p :: ps, 0, j => ⟨p.indices ++ [j]⟩ :: ps
  | p :: ps, i + 1, j => p :: extendAt ps i j

/-- The child counts recorded by one run of the closure
(`c.gen_child_count` after line 103). -/
def genCounts (f : FGen V A) (r : Random) (s : Nat) (paths : List TreePath) : List Nat :=
  (runClosure f (Chooser.new r s paths)).2.gen_child_count

/-- `Gen::combine_go` from `src/hh3_lazy_tree.rs` lines 97-135.  Run the
closure with the given shrink paths to get the value and the per-call-site
child counts; pad the paths; the children re-run the builder once per
call-site per shrink option, pushing that option onto the call-site's path.
The extra `Nat` argument is the laziness fuel (observation depth): at fuel
`n + 1` the children are built at fuel `n`, and at fuel `0` the children
closure is not forced. -/
def combine_go (f : FGen V A) (r : Random) (s : Nat) (paths : List TreePath) :
    Nat → Tree A
  | 0 => Tree.node (runClosure f (Chooser.new r s paths)).1 []
  | fuel + 1 =>
    let run := runClosure f (Chooser.new r s paths)
    let counts := run.2.gen_child_count
    let paths2 := padPaths paths counts.length
    Tree.node run.1
      (counts.enum.foldl
        (fun acc gc =>
          (List.range gc.2).foldl
            (fun acc2 j => acc2 ++ [combine_go f r s (extendAt paths2 gc.1 j) fuel])
            acc)
        [])

/-- `Gen::combine` from `src/hh3_lazy_tree.rs` lines 88-94 (with the
laziness fuel made explicit): wrap the closure, starting from an empty path
list. -/
def Gen.combine (fuel : Nat) (f : FGen V A) : Gen A :=
  ⟨fun r s => combine_go f r s [] fuel⟩

/-- `Gen::usize` from `src/hh3_lazy_tree.rs` lines 219-225:
`combine(|c| c.of(Gen::u64(start as u64 .. end as u64)) as usize)`.  The
`usize`/`u64` casts are the identity on `Nat`. -/
def Gen.usize (fuel lo hi : Nat) : Gen Nat :=
  Gen.combine fuel (FGen.bind (Gen.u64 lo hi) (fun v => FGen.pure v))

/-- `Gen::choose` from `src/hh3_lazy_tree.rs` lines 229-235:
`combine(|c| { let ix = c.of(Gen::usize(0..v.len())); v[ix].clone() })`.
Rust's `v[ix]` aborts when out of bounds; the model uses `List.getD` with an
explicit default `d`, and the theorems below show the selected index is
always in bounds, so `d` is never produced. -/
def Gen.choose (fuel : Nat) (values : List A) (d : A) : Gen A :=
  Gen.combine fuel
    (FGen.bind (Gen.usize fuel 0 values.length) (fun ix => FGen.pure (values.getD ix d)))

/-! ## The children enumeration of `combine_go` (claim C1) -/

theorem foldl_push_range (g : Nat → B) :
    ∀ (n : Nat) (acc : List B),
      (List.range n).foldl (fun a j => a ++ [g j]) acc = acc ++ (List.range n).map g := by
  intro n
  induction n with
  | zero => intro acc; simp
  | succ n ih =>
    intro acc
    rw [List.range_succ, List.foldl_append, ih, List.map_append]
    simp

theorem foldl_push_enum (build : Nat → Nat → B) :
    ∀ (l : List (Nat × Nat)) (acc : List B),
      l.foldl
          (fun acc gc =>
            (List.range gc.2).foldl (fun a2 j => a2 ++ [build gc.1 j]) acc)
          acc =
        acc ++ l.flatMap (fun gc => (List.range gc.2).map (fun j => build gc.1 j)) := by
  intro l
  induction l with
  | nil => intro acc; simp
  | cons x xs ih =>
    intro acc
    rw [List.foldl_cons, foldl_push_range, ih, List.flatMap_cons, List.append_assoc]

/-- C1: for every closure `f`, random source `r`, size `s` and input path
list, the children of the tree built by `combine_go` are exactly, enumerated
call-site-major: for each call-site index `i` with recorded output child
count `c_i` and each candidate index `j < c_i`, the tree produced by
re-running the builder with the padded path list in which entry `i` is
extended by `j` and all other entries are unchanged.  (`fuel + 1` versus
`fuel` is the observation depth of the lazy children, see the header.) -/
theorem combine_children_callsite_major (f : FGen V A) (r : Random) (s : Nat)
    (paths : List TreePath) (fuel : Nat) :
    (combine_go f r s paths (fuel + 1)).children =
      (genCounts f r s paths).enum.flatMap (fun gc =>
        (List.range gc.2).map (fun j =>
          combine_go f r s
            (extendAt (padPaths paths (genCounts f r s paths).length) gc.1 j) fuel)) := by
  rw [combine_go]
  simp only [Tree.children_node, genCounts]
  have h := foldl_push_enum
    (fun i j => combine_go f r s
      (extendAt (padPaths paths
        (runClosure f (Chooser.new r s paths)).2.gen_child_count.length) i j) fuel)
    ((runClosure f (Chooser.new r s paths)).2.gen_child_count.enum) []
  simpa using h

/-! ## Totality of path resolution (claim C4) -/

theorem getPathGo_spec :
    ∀ (idx : List Nat) (t : Tree A),
      ∃ q rest, q ++ rest = idx ∧
        exactFollow q t = some (getPathGo idx t) ∧
        (rest = [] ∨ ∃ i rest2, rest = i :: rest2 ∧ (getPathGo idx t).children.length ≤ i) := by
  intro idx
  induction idx with
  | nil => intro t; exact ⟨[], [], rfl, rfl, Or.inl rfl⟩
  | cons ix rest ih =>
    intro t
    cases hc : t.children[ix]? with
    | some c =>
      rcases ih c with ⟨q, rr, hqr, hq, hstop⟩
      have hgo : getPathGo (ix :: rest) t = getPathGo rest c := by
        simp [getPathGo, hc]
      refine ⟨ix :: q, rr, by simp [hqr], ?_, by rw [hgo]; exact hstop⟩
      rw [hgo]
      simp [exactFollow, hc, hq]
    | none =>
      have hgo : getPathGo (ix :: rest) t = t := by simp [getPathGo, hc]
      refine ⟨[], ix :: rest, rfl, by simp [hgo], Or.inr ⟨ix, rest, rfl, ?_⟩⟩
      rw [hgo]
      exact List.getElem?_eq_none_iff.mp hc

/-- C4: path resolution is total (this model of
`Tree::get_path_or_closest` is a total function) and, for every tree and
every path — longer than the tree's depth or with out-of-range indices
included — it walks the path, stopping at the first out-of-range index, and
the node it returns is resolved exactly by a prefix of the path: an
ancestor-or-self node reachable from the root. -/
theorem get_path_or_closest_total (t : Tree A) (p : TreePath) :
    Reachable t (t.get_path_or_closest p) ∧
      ∃ q rest, q ++ rest = p.indices ∧
        exactFollow q t = some (t.get_path_or_closest p) ∧
        (rest = [] ∨ ∃ i rest2, rest = i :: rest2 ∧
          (t.get_path_or_closest p).children.length ≤ i) := by
  rcases getPathGo_spec p.indices t with ⟨q, rest, hqr, hq, hstop⟩
  exact ⟨⟨q, hq⟩, q, rest, hqr, hq, hstop⟩

/-! ## Determinism of generators (claim C2) -/

/-- C2: running any generator twice with random sources in identical
internal state and the same size yields identical trees — in particular
equal root values and equal immediate child counts.  (In this embedding a
`Gen` is the pure function of `src/hh3_lazy_tree.rs` lines 48-51; there is
no other state for a run to read.) -/
theorem gen_deterministic {A : Type} (g : Gen A) (r1 r2 : Random) (s : Nat)
    (h : r1 = r2) :
    g.run r1 s = g.run r2 s ∧
      (g.run r1 s).value = (g.run r2 s).value ∧
      (g.run r1 s).children.length = (g.run r2 s).children.length := by
  subst h
  exact ⟨rfl, rfl, rfl⟩

theorem gen_deterministic_witness :
    (Gen.u64 0 10).run ⟨⟨1, 1⟩⟩ 0 = (Gen.u64 0 10).run ⟨⟨1, 1⟩⟩ 0 ∧
      ((Gen.u64 0 10).run ⟨⟨1, 1⟩⟩ 0).value = ((Gen.u64 0 10).run ⟨⟨1, 1⟩⟩ 0).value ∧
      ((Gen.u64 0 10).run ⟨⟨1, 1⟩⟩ 0).children.length =
        ((Gen.u64 0 10).run ⟨⟨1, 1⟩⟩ 0).children.length :=
  gen_deterministic (Gen.u64 0 10) ⟨⟨1, 1⟩⟩ ⟨⟨1, 1⟩⟩ 0 rfl

/-! ## The extraction step (claim C5) -/

/-- C5: the `n`-th extraction call (`n` = number of call-sites recorded so
far) resolves the sub-generator's tree against the `n`-th input path; a
missing entry behaves exactly as the empty path, selecting the unshrunk
root, and is not an error (`Chooser.of` is total); the resolved node's
child count is recorded at position `n` of the output-count list. -/
theorem chooser_of_resolves (c : Chooser V) (g : Gen V) :
    Chooser.of c g =
      (((g.run (Random.split c.rand).2 c.size).get_path_or_closest
          (c.gen_paths.getD c.gen_child_count.length TreePath.empty)).value,
        ⟨(Random.split c.rand).1, c.size, c.gen_paths,
          c.gen_child_count ++
            [((g.run (Random.split c.rand).2 c.size).get_path_or_closest
                (c.gen_paths.getD c.gen_child_count.length TreePath.empty)).children.length]⟩) ∧
      ((Chooser.of c g).2.gen_child_count)[c.gen_child_count.length]? =
        some ((g.run (Random.split c.rand).2 c.size).get_path_or_closest
            (c.gen_paths.getD c.gen_child_count.length TreePath.empty)).children.length := by
  have hmain : Chooser.of c g =
      (((g.run (Random.split c.rand).2 c.size).get_path_or_closest
          (c.gen_paths.getD c.gen_child_count.length TreePath.empty)).value,
        ⟨(Random.split c.rand).1, c.size, c.gen_paths,
          c.gen_child_count ++
            [((g.run (Random.split c.rand).2 c.size).get_path_or_closest
                (c.gen_paths.getD c.gen_child_count.length TreePath.empty)).children.length]⟩) := by
    unfold Chooser.of
    cases hp : c.gen_paths[c.gen_child_count.length]? with
    | none =>
      simp [hp, List.getD_eq_getElem?_getD, Tree.get_path_or_closest, getPathGo,
        TreePath.empty]
    | some p =>
      simp [hp, List.getD_eq_getElem?_getD]
  refine ⟨hmain, ?_⟩
  rw [hmain]
  exact List.getElem?_concat_length _ _

/-! ## The random source's split (claim C7) -/

theorem add_two_mod_ne (n : Nat) : (n + 2) % W128 ≠ n := by
  intro h
  rcases Nat.lt_or_ge n W128 with hlt | hge
  · have h2 : (n + 2) % W128 = n % W128 := by rw [h, Nat.mod_eq_of_lt hlt]
    have hm : Nat.ModEq W128 n (n + 2) := h2.symm
    have hdvd : W128 ∣ 2 := by
      have := (Nat.modEq_iff_dvd' (Nat.le_add_right n 2)).mp hm
      simpa using this
    have hle : W128 ≤ 2 := Nat.le_of_dvd (by norm_num) hdvd
    norm_num [W128] at hle
  · have hlt2 : (n + 2) % W128 < W128 := Nat.mod_lt _ (by simp [W128])
    omega

/-- C7 (amended): `split` is deterministic (equal states give equal
`(self-after-split, child)` pairs) and the child is guaranteed distinct from
the pre-split parent by construction — its increment is the parent's plus 2
mod `2^128`, a change that can never be the identity.  Two successive
children, however, both carry increment `inc + 2`, so their distinctness
rests solely on the perturbed state halves, and for the degenerate state
`(state 0, increment 0)` — where the PCG advance is stationary — successive
splits return identical children (see the counterexample theorem). -/
theorem split_deterministic_and_child_distinct (r r2 : Random) (h : r2 = r) :
    Random.split r2 = Random.split r ∧
      (Random.split r).2 ≠ r ∧
      (Random.split r).2.rand.inc = (r.rand.inc + 2) % W128 ∧
      ((Random.split r).1.split).2.rand.inc = (r.rand.inc + 2) % W128 := by
  subst h
  refine ⟨rfl, ?_, rfl, rfl⟩
  intro heq
  exact add_two_mod_ne _ (congrArg (fun x => x.rand.inc) heq)

theorem split_deterministic_and_child_distinct_witness :
    Random.split ⟨⟨1, 3⟩⟩ = Random.split ⟨⟨1, 3⟩⟩ ∧
      (Random.split ⟨⟨1, 3⟩⟩).2 ≠ ⟨⟨1, 3⟩⟩ ∧
      (Random.split ⟨⟨1, 3⟩⟩).2.rand.inc = (3 + 2) % W128 ∧
      ((Random.split ⟨⟨1, 3⟩⟩).1.split).2.rand.inc = (3 + 2) % W128 :=
  split_deterministic_and_child_distinct ⟨⟨1, 3⟩⟩ ⟨⟨1, 3⟩⟩ rfl

/-- C7 (counterexample): at the concrete source state
`(state 0, increment 0)`, the split does not advance the parent and two
successive splits return identical children, refuting "two successive
splits from the same source never return identical children" as a statement
about every random source state. -/
theorem split_identical_children_counterexample :
    (Random.split (Random.split ⟨⟨0, 0⟩⟩).1).2 = (Random.split ⟨⟨0, 0⟩⟩).2 ∧
      (Random.split ⟨⟨0, 0⟩⟩).1 = ⟨⟨0, 0⟩⟩ := by
  constructor <;> rfl

/-! ## Invalid ranges fail (claim C8) and size-independence (claim C10) -/

/-- C8: for every empty or inverted range (`hi <= lo`), the bounded-integer
generator's draw fails and `Gen::u64` propagates the failure immediately —
no tree, and in particular no silently wrapped or degenerate value, is
produced. -/
theorem u64_invalid_range_fails (lo hi : Nat) (r : Random) (s : Nat) (h : hi ≤ lo) :
    Gen.u64Checked lo hi r s = none ∧ Random.u64_range r lo hi = none := by
  have hn : ¬ lo < hi := by omega
  exact ⟨by simp [Gen.u64Checked, Random.u64_range, hn], by simp [Random.u64_range, hn]⟩

theorem u64_invalid_range_fails_witness :
    Gen.u64Checked 5 3 ⟨⟨1, 1⟩⟩ 0 = none ∧ Random.u64_range ⟨⟨1, 1⟩⟩ 5 3 = none :=
  u64_invalid_range_fails 5 3 ⟨⟨1, 1⟩⟩ 0 (by omega)

/-- C10: the primitive bounded-integer generator ignores the size parameter
entirely: for every range and source state, any two sizes give identical
trees (both for the valid-range runner and for the checked runner covering
every range). -/
theorem u64_ignores_size (lo hi : Nat) (r : Random) (s1 s2 : Nat) :
    (Gen.u64 lo hi).run r s1 = (Gen.u64 lo hi).run r s2 ∧
      Gen.u64Checked lo hi r s1 = Gen.u64Checked lo hi r s2 :=
  ⟨rfl, rfl⟩

/-! ## The shrink rule of the bounded-integer generator (claims C3, C6) -/

/-- C3: every node of the tree produced by `Gen::u64(lo..hi)` obeys the
shrink rule: with `delta = v - lo`, two children rooted at `lo + delta / 2`
and `v - 1` in that order when `delta > 4`, one child rooted at `v - 1` when
`0 < delta <= 4`, and no children when `delta = 0`; and concretely the tree
of `int_range(0, 10)` rooted at `5` has children rooted at `2` then `4`. -/
theorem int_range_shrink_rule (lo hi : Nat) (r : Random) (s : Nat) (u : Tree Nat)
    (_hrange : lo < hi) (hu : Reachable ((Gen.u64 lo hi).run r s) u) :
    (u.children.map Tree.value =
      if 4 < u.value - lo then [lo + (u.value - lo) / 2, u.value - 1]
      else if 0 < u.value - lo then [u.value - 1]
      else []) ∧
    (shrink_u64 0 10 5).children.map Tree.value = [2, 4] := by
  constructor
  · rcases hu with ⟨q, hq⟩
    have hval : lo ≤ Random.u64_val r lo hi := Nat.le_add_right _ _
    rcases reach_shrink_u64 q lo hi _ hval u hq with ⟨w, hw1, _, _, rfl⟩
    simp only [shrink_u64_value]
    by_cases h4 : 4 < w - lo
    · rw [shrink_u64_children_gt lo hi w h4, if_pos h4]
      simp
    · by_cases h0 : 0 < w - lo
      · rw [shrink_u64_children_dec lo hi w h0 (by omega), if_neg h4, if_pos h0]
        simp
      · rw [shrink_u64_children_zero lo hi w (by omega), if_neg h4, if_neg h0]
        simp
  · rw [shrink_u64_children_gt 0 10 5 (by norm_num)]
    simp

theorem int_range_shrink_rule_witness :
    Reachable ((Gen.u64 0 10).run ⟨⟨1, 1⟩⟩ 0) ((Gen.u64 0 10).run ⟨⟨1, 1⟩⟩ 0) ∧
      ((((Gen.u64 0 10).run ⟨⟨1, 1⟩⟩ 0).children.map Tree.value =
        if 4 < ((Gen.u64 0 10).run ⟨⟨1, 1⟩⟩ 0).value - 0 then
          [0 + (((Gen.u64 0 10).run ⟨⟨1, 1⟩⟩ 0).value - 0) / 2,
            ((Gen.u64 0 10).run ⟨⟨1, 1⟩⟩ 0).value - 1]
        else if 0 < ((Gen.u64 0 10).run ⟨⟨1, 1⟩⟩ 0).value - 0 then
          [((Gen.u64 0 10).run ⟨⟨1, 1⟩⟩ 0).value - 1]
        else []) ∧
      (shrink_u64 0 10 5).children.map Tree.value = [2, 4]) :=
  ⟨Reachable.refl _,
    int_range_shrink_rule 0 10 ⟨⟨1, 1⟩⟩ 0 _ (by norm_num) (Reachable.refl _)⟩

/-- One step of "always take the decrement child": the decrement candidate
is the last child offered by the shrink rule. -/
def decStep (t : Tree Nat) : Tree Nat := (t.children.getLast?).getD t

/-- Iterate the decrement-only shrink path. -/
def decIterate : Nat → Tree Nat → Tree Nat
  | 0, t => t
  | k + 1, t => decIterate k (decStep t)

theorem decStep_shrink (lo hi v : Nat) (h0 : 0 < v - lo) :
    decStep (shrink_u64 lo hi v) = shrink_u64 lo hi (v - 1) := by
  by_cases h4 : 4 < v - lo
  · simp [decStep, shrink_u64_children_gt lo hi v h4]
  · simp [decStep, shrink_u64_children_dec lo hi v h0 (by omega)]

theorem decIterate_shrink (lo hi : Nat) :
    ∀ (k v : Nat), lo ≤ v → k ≤ v - lo →
      decIterate k (shrink_u64 lo hi v) = shrink_u64 lo hi (v - k) := by
  intro k
  induction k with
  | zero => intro v _ _; simp [decIterate]
  | succ k ih =>
    intro v hv hk
    rw [decIterate, decStep_shrink lo hi v (by omega), ih (v - 1) (by omega) (by omega)]
    congr 1
    omega

theorem shrink_child_delta_lt (lo hi w : Nat) :
    ∀ c ∈ (shrink_u64 lo hi w).children, c.value - lo < w - lo := by
  intro c hmem
  by_cases h4 : 4 < w - lo
  · rw [shrink_u64_children_gt lo hi w h4] at hmem
    simp only [List.mem_cons, List.not_mem_nil, or_false] at hmem
    rcases hmem with rfl | rfl <;> simp only [shrink_u64_value] <;> omega
  · by_cases h0 : 0 < w - lo
    · rw [shrink_u64_children_dec lo hi w h0 (by omega)] at hmem
      simp only [List.mem_cons, List.not_mem_nil, or_false] at hmem
      rcases hmem with rfl
      simp only [shrink_u64_value]
      omega
    · rw [shrink_u64_children_zero lo hi w (by omega)] at hmem
      simp at hmem

/-- C6: in every tree produced by the bounded-integer shrink rule on a range
`lo < hi`, every child's value is strictly closer to `lo` than its parent's
(`child_delta < parent_delta`), and starting from the root with
`delta = v - lo` the decrement-only path reaches `delta = 0` in exactly
`delta` steps: after `k <= delta` steps the value is `v - k`, after `delta`
steps the node is terminal, and after fewer than `delta` steps it is not yet
at the floor. -/
theorem shrink_monotone_and_dec_path (lo hi v : Nat) (_hlo : lo < hi) (hv1 : lo ≤ v)
    (_hv2 : v < hi) :
    (∀ u, Reachable (shrink_u64 lo hi v) u →
      ∀ c ∈ u.children, c.value - lo < u.value - lo) ∧
    (∀ k, k ≤ v - lo → (decIterate k (shrink_u64 lo hi v)).value = v - k) ∧
    (decIterate (v - lo) (shrink_u64 lo hi v)).children = [] ∧
    (∀ k, k < v - lo → 0 < (decIterate k (shrink_u64 lo hi v)).value - lo) := by
  refine ⟨?_, ?_, ?_, ?_⟩
  · intro u hu c hc
    rcases hu with ⟨q, hq⟩
    rcases reach_shrink_u64 q lo hi v hv1 u hq with ⟨w, _, _, _, rfl⟩
    simp only [shrink_u64_value]
    exact shrink_child_delta_lt lo hi w c hc
  · intro k hk
    rw [decIterate_shrink lo hi k v hv1 hk]
    simp only [shrink_u64_value]
  · rw [decIterate_shrink lo hi (v - lo) v hv1 (le_refl _),
      shrink_u64_children_zero lo hi (v - (v - lo)) (by omega)]
  · intro k hk
    rw [decIterate_shrink lo hi k v hv1 (by omega)]
    simp only [shrink_u64_value]
    omega

theorem shrink_monotone_and_dec_path_witness :
    (∀ u, Reachable (shrink_u64 0 10 5) u →
      ∀ c ∈ u.children, c.value - 0 < u.value - 0) ∧
    (∀ k, k ≤ 5 - 0 → (decIterate k (shrink_u64 0 10 5)).value = 5 - k) ∧
    (decIterate (5 - 0) (shrink_u64 0 10 5)).children = [] ∧
    (∀ k, k < 5 - 0 → 0 < (decIterate k (shrink_u64 0 10 5)).value - 0) :=
  shrink_monotone_and_dec_path 0 10 5 (by norm_num) (by norm_num) (by norm_num)

/-! ## Single-extraction combine closures build a mapped copy of the
sub-generator's tree (infrastructure for claim C9) -/

/-- Map a function over a tree, observed to a given depth (matching the
fuel discipline of `combine_go`): at fuel `0` the children are not forced. -/
def truncMap (h : V → A) : Nat → Tree V → Tree A
  | 0, t => Tree.node (h t.value) []
  | fuel + 1, t => Tree.node (h t.value) (t.children.map (truncMap h fuel))

@[simp] theorem truncMap_value (h : V → A) (fuel : Nat) (t : Tree V) :
    (truncMap h fuel t).value = h t.value := by
  cases fuel <;> rfl

theorem truncMap_succ_children (h : V → A) (fuel : Nat) (t : Tree V) :
    (truncMap h (fuel + 1) t).children = t.children.map (truncMap h fuel) := rfl

theorem truncMap_truncMap (g : A → B) (h : B → C) :
    ∀ (fuel : Nat) (t : Tree A),
      truncMap h fuel (truncMap g fuel t) = truncMap (fun a => h (g a)) fuel t := by
  intro fuel
  induction fuel with
  | zero => intro t; rfl
  | succ fuel ih =>
    intro t
    simp only [truncMap, Tree.children_node, List.map_map]
    congr 1
    exact List.map_congr_left fun c _ => ih c

theorem range_map_getD (f : B → C) (d : B) :
    ∀ (l : List B),
      (List.range l.length).map (fun j => f (l.getD j d)) = l.map f := by
  intro l
  induction l with
  | nil => simp
  | cons x xs ih =>
    simp only [List.length_cons, List.range_succ_eq_map, List.map_cons, List.map_map,
      List.getD_cons_zero]
    have hcomp : ((fun j => f ((x :: xs).getD j d)) ∘ Nat.succ) =
        (fun j => f (xs.getD j d)) := by
      funext j
      simp [List.getD_cons_succ]
    rw [hcomp, ih]

/-- Running the one-extraction closure `|c| h(c.of(g))` is a single
`Chooser::of` step followed by the pure map. -/
theorem runClosure_single (g : Gen V) (h : V → A) (c : Chooser V) :
    runClosure (FGen.bind g (fun v => FGen.pure (h v))) c =
      (h (Chooser.of c g).1, (Chooser.of c g).2) := rfl

theorem combine_go_zero (f : FGen V A) (r : Random) (s : Nat) (paths : List TreePath) :
    combine_go f r s paths 0 = Tree.node (runClosure f (Chooser.new r s paths)).1 [] := rfl

theorem single_of_path (g : Gen V) (r : Random) (s : Nat) (p : List Nat) (node : Tree V)
    (hp : exactFollow p (g.run (Random.split r).2 s) = some node) :
    Chooser.of (Chooser.new r s [⟨p⟩]) g =
      (node.value, ⟨(Random.split r).1, s, [⟨p⟩], [node.children.length]⟩) := by
  unfold Chooser.of Chooser.new
  have hres : (g.run (Random.split r).2 s).get_path_or_closest ⟨p⟩ = node :=
    getPathGo_of_exactFollow p _ node hp
  simp [hres]

theorem single_of_empty (g : Gen V) (r : Random) (s : Nat) :
    Chooser.of (Chooser.new r s ([] : List TreePath)) g =
      ((g.run (Random.split r).2 s).value,
        ⟨(Random.split r).1, s, [], [(g.run (Random.split r).2 s).children.length]⟩) := by
  unfold Chooser.of Chooser.new
  simp

/-- The recursive builder on the one-extraction closure, at an input path
that resolves exactly to `node` in the sub-generator's tree, produces the
`h`-image of the subtree at `node` (to the observed depth). -/
theorem combine_single (g : Gen V) (h : V → A) (r : Random) (s : Nat) :
    ∀ (fuel : Nat) (p : List Nat) (node : Tree V),
      exactFollow p (g.run (Random.split r).2 s) = some node →
      combine_go (FGen.bind g (fun v => FGen.pure (h v))) r s [⟨p⟩] fuel =
        truncMap h fuel node := by
  intro fuel
  induction fuel with
  | zero =>
    intro p node hp
    rw [combine_go_zero, runClosure_single, single_of_path g r s p node hp, truncMap]
  | succ fuel ih =>
    intro p node hp
    rw [combine_go]
    simp only [runClosure_single, single_of_path g r s p node hp]
    rw [truncMap]
    congr 1
    have henum : ([node.children.length] : List Nat).enum = [(0, node.children.length)] := rfl
    rw [henum]
    have hfold := foldl_push_enum
      (fun i j => combine_go (FGen.bind g (fun v => FGen.pure (h v))) r s
        (extendAt (padPaths [⟨p⟩] [node.children.length].length) i j) fuel)
      [(0, node.children.length)] []
    simp only [List.nil_append] at hfold
    rw [hfold, List.flatMap_cons, List.flatMap_nil, List.append_nil]
    have hpad : padPaths [(⟨p⟩ : TreePath)] [node.children.length].length = [⟨p⟩] := by
      simp [padPaths]
    rw [hpad]
    have hmap : ∀ j ∈ List.range node.children.length,
        combine_go (FGen.bind g (fun v => FGen.pure (h v))) r s (extendAt [⟨p⟩] 0 j) fuel =
          truncMap h fuel (node.children.getD j node) := by
      intro j hj
      have hjlt : j < node.children.length := List.mem_range.mp hj
      have hchild : node.children[j]? = some (node.children.getD j node) := by
        rw [List.getElem?_eq_getElem hjlt, List.getD_eq_getElem?_getD,
          List.getElem?_eq_getElem hjlt]
        rfl
      have hp2 : exactFollow (p ++ [j]) (g.run (Random.split r).2 s) =
          some (node.children.getD j node) := by
        rw [exactFollow_append_single, hp, Option.some_bind, hchild]
      have hext : extendAt [(⟨p⟩ : TreePath)] 0 j = [⟨p ++ [j]⟩] := rfl
      rw [hext]
      exact ih (p ++ [j]) (node.children.getD j node) hp2
    rw [List.map_congr_left hmap, range_map_getD (truncMap h fuel) node node.children]

/-- The builder started from the empty path list (as `Gen::combine` does)
on the one-extraction closure produces the `h`-image of the whole
sub-generator tree. -/
theorem combine_single_root (g : Gen V) (h : V → A) (r : Random) (s : Nat) :
    ∀ fuel : Nat,
      combine_go (FGen.bind g (fun v => FGen.pure (h v))) r s [] fuel =
        truncMap h fuel (g.run (Random.split r).2 s) := by
  intro fuel
  cases fuel with
  | zero =>
    rw [combine_go_zero, runClosure_single, single_of_empty g r s, truncMap]
  | succ fuel =>
    rw [combine_go]
    simp only [runClosure_single, single_of_empty g r s]
    rw [truncMap]
    congr 1
    have henum : ([(g.run (Random.split r).2 s).children.length] : List Nat).enum =
        [(0, (g.run (Random.split r).2 s).children.length)] := rfl
    rw [henum]
    have hfold := foldl_push_enum
      (fun i j => combine_go (FGen.bind g (fun v => FGen.pure (h v))) r s
        (extendAt (padPaths []
          [(g.run (Random.split r).2 s).children.length].length) i j) fuel)
      [(0, (g.run (Random.split r).2 s).children.length)] []
    simp only [List.nil_append] at hfold
    rw [hfold, List.flatMap_cons, List.flatMap_nil, List.append_nil]
    have hpad : padPaths ([] : List TreePath)
        [(g.run (Random.split r).2 s).children.length].length = [⟨[]⟩] := by
      simp [padPaths, TreePath.empty]
    rw [hpad]
    have hmap : ∀ j ∈ List.range (g.run (Random.split r).2 s).children.length,
        combine_go (FGen.bind g (fun v => FGen.pure (h v))) r s (extendAt [⟨[]⟩] 0 j) fuel =
          truncMap h fuel
            ((g.run (Random.split r).2 s).children.getD j (g.run (Random.split r).2 s)) := by
      intro j hj
      have hjlt : j < (g.run (Random.split r).2 s).children.length := List.mem_range.mp hj
      have hchild : (g.run (Random.split r).2 s).children[j]? =
          some ((g.run (Random.split r).2 s).children.getD j (g.run (Random.split r).2 s)) := by
        rw [List.getElem?_eq_getElem hjlt, List.getD_eq_getElem?_getD,
          List.getElem?_eq_getElem hjlt]
        rfl
      have hp2 : exactFollow ([] ++ [j]) (g.run (Random.split r).2 s) =
          some ((g.run (Random.split r).2 s).children.getD j (g.run (Random.split r).2 s)) := by
        rw [exactFollow_append_single, exactFollow_nil, Option.some_bind, hchild]
      have hext : extendAt [(⟨[]⟩ : TreePath)] 0 j = [⟨[] ++ [j]⟩] := rfl
      rw [hext]
      exact combine_single g h r s fuel ([] ++ [j]) _ hp2
    rw [List.map_congr_left hmap,
      range_map_getD (truncMap h fuel) (g.run (Random.split r).2 s)
        (g.run (Random.split r).2 s).children]

/-- Reachable nodes of a depth-observed mapped tree come from reachable
nodes of the underlying tree, with the path shorter than the fuel spent. -/
theorem exactFollow_truncMap (h : A → B) :
    ∀ (q : List Nat) (fuel : Nat) (t : Tree A) (u : Tree B),
      exactFollow q (truncMap h fuel t) = some u →
      ∃ node, exactFollow q t = some node ∧ q.length ≤ fuel ∧
        u = truncMap h (fuel - q.length) node := by
  intro q
  induction q with
  | nil =>
    intro fuel t u hq
    refine ⟨t, rfl, Nat.zero_le _, ?_⟩
    simpa using hq.symm
  | cons i rest ih =>
    intro fuel t u hq
    cases fuel with
    | zero =>
      rw [truncMap] at hq
      simp [exactFollow] at hq
    | succ fuel =>
      rw [truncMap] at hq
      simp only [exactFollow, Tree.children_node, List.getElem?_map] at hq
      cases hc : t.children[i]? with
      | none => rw [hc] at hq; simp at hq
      | some c =>
        rw [hc] at hq
        rcases ih fuel c u (by simpa using hq) with ⟨node, hnode, hlen, hu⟩
        refine ⟨node, ?_, by simpa using Nat.succ_le_succ hlen, ?_⟩
        · simp [exactFollow, hc, hnode]
        · rw [hu]
          congr 1
          simp only [List.length_cons]
          omega

theorem shrink_children_ne_nil (lo hi w : Nat) (h0 : 0 < w - lo) :
    (shrink_u64 lo hi w).children ≠ [] := by
  by_cases h4 : 4 < w - lo
  · rw [shrink_u64_children_gt lo hi w h4]
    simp
  · rw [shrink_u64_children_dec lo hi w h0 (by omega)]
    simp

/-- C9: for a non-empty list, `choose(values)` produces a tree whose root
holds `values[ix]` for an index `ix` drawn by the index generator over
`[0, len)` (in particular the root is an element of the list), and shrinking
drives the index toward `0`: every fully-shrunk (childless) node reachable
by shrink steps holds the first element.  `fuel` is the lazy observation
depth; `values.length ≤ fuel` ensures every childless node observed is
genuinely terminal rather than cut off by the observation depth. -/
theorem choose_drives_to_first {A : Type} (values : List A) (d : A) (r : Random)
    (s fuel : Nat) (hne : values ≠ []) (hfuel : values.length ≤ fuel) :
    (∃ ix, ix < values.length ∧
      ((Gen.choose fuel values d).run r s).value = values.getD ix d) ∧
    ((Gen.choose fuel values d).run r s).value ∈ values ∧
    (∀ u, Reachable ((Gen.choose fuel values d).run r s) u → u.children = [] →
      u.value = values.getD 0 d) := by
  have hn : 0 < values.length := List.length_pos.mpr hne
  have hv0 : Random.u64_val (Random.split (Random.split r).2).2 0 values.length <
      values.length := by
    simp only [Random.u64_val, Nat.zero_add, Nat.sub_zero]
    exact Nat.mod_lt _ hn
  have hrun : (Gen.choose fuel values d).run r s =
      truncMap (fun ix => values.getD ix d) fuel
        (shrink_u64 0 values.length
          (Random.u64_val (Random.split (Random.split r).2).2 0 values.length)) := by
    show combine_go
        (FGen.bind (Gen.usize fuel 0 values.length)
          (fun ix => FGen.pure (values.getD ix d))) r s [] fuel = _
    rw [combine_single_root (Gen.usize fuel 0 values.length)
      (fun ix => values.getD ix d) r s fuel]
    have husize : (Gen.usize fuel 0 values.length).run (Random.split r).2 s =
        truncMap (fun v => v) fuel
          ((Gen.u64 0 values.length).run (Random.split (Random.split r).2).2 s) := by
      show combine_go (FGen.bind (Gen.u64 0 values.length) (fun v => FGen.pure v))
          (Random.split r).2 s [] fuel = _
      exact combine_single_root (Gen.u64 0 values.length) (fun v => v)
        (Random.split r).2 s fuel
    rw [husize]
    show truncMap (fun ix => values.getD ix d) fuel
        (truncMap (fun v => v) fuel (shrink_u64 0 values.length _)) = _
    rw [truncMap_truncMap]
  have hgd : ∀ ix, ix < values.length → values.getD ix d ∈ values := by
    intro ix hix
    rw [List.getD_eq_getElem?_getD, List.getElem?_eq_getElem hix]
    exact List.getElem_mem hix
  refine ⟨?_, ?_, ?_⟩
  · refine ⟨Random.u64_val (Random.split (Random.split r).2).2 0 values.length, hv0, ?_⟩
    rw [hrun, truncMap_value, shrink_u64_value]
  · have : ((Gen.choose fuel values d).run r s).value =
        values.getD (Random.u64_val (Random.split (Random.split r).2).2 0 values.length) d := by
      rw [hrun, truncMap_value, shrink_u64_value]
    rw [this]
    exact hgd _ hv0
  · intro u hu huc
    rcases hu with ⟨q, hq⟩
    rw [hrun] at hq
    rcases exactFollow_truncMap (fun ix => values.getD ix d) q fuel _ u hq with
      ⟨node, hnode, hqlen, rfl⟩
    rcases reach_shrink_u64 q 0 values.length _ (Nat.zero_le _) node hnode with
      ⟨w, _, _, hwlen, rfl⟩
    have hqlt : q.length < fuel := by
      have : Random.u64_val (Random.split (Random.split r).2).2 0 values.length <
          values.length := hv0
      omega
    have hfm : ∃ m, fuel - q.length = m + 1 := ⟨fuel - q.length - 1, by omega⟩
    rcases hfm with ⟨m, hm⟩
    rw [hm] at huc ⊢
    rw [truncMap_succ_children] at huc
    have hwnil : (shrink_u64 0 values.length w).children = [] :=
      List.map_eq_nil_iff.mp huc
    have hw0 : w = 0 := by
      by_contra hwne
      exact shrink_children_ne_nil 0 values.length w (by omega) hwnil
    rw [truncMap_value, shrink_u64_value, hw0]

theorem choose_drives_to_first_witness :
    ([10, 20, 30] : List Nat) ≠ [] ∧ ([10, 20, 30] : List Nat).length ≤ 3 ∧
      ((∃ ix, ix < ([10, 20, 30] : List Nat).length ∧
        ((Gen.choose 3 [10, 20, 30] 0).run ⟨⟨1, 1⟩⟩ 0).value = [10, 20, 30].getD ix 0) ∧
      ((Gen.choose 3 [10, 20, 30] 0).run ⟨⟨1, 1⟩⟩ 0).value ∈ [10, 20, 30] ∧
      (∀ u, Reachable ((Gen.choose 3 [10, 20, 30] 0).run ⟨⟨1, 1⟩⟩ 0) u →
        u.children = [] → u.value = [10, 20, 30].getD 0 0)) :=
  ⟨by decide, by decide,
    choose_drives_to_first [10, 20, 30] 0 ⟨⟨1, 1⟩⟩ 0 3 (by decide) (by decide)⟩

end MonadFree
